import Mathlib

/-!
Shallow embedding of the log-parsing-and-aggregation pipeline of
squeezestats.py (the core of the ttaapp/scripts repository), together with
theorems settling the specification claims about it.

Strings handled by the Python parsing helpers are modelled as `List Char`
(with `String` wrappers where the source passes whole strings around);
Python `int` values are modelled as `Int`, timestamps as seconds (`Int`),
and Python `float` statistics as `Rat`.  The model of Python's `int()`
builtin covers its ASCII behaviour: optional surrounding whitespace, an
optional single sign, and decimal digits with single underscores allowed
between digits.
-/

namespace Squeeze

/-- ASCII model of the whitespace accepted (and stripped) by Python `int()`. -/
def pyWs (c : Char) : Bool :=
  c == ' ' || c == '\t' || c == '\n' || c == '\r' || c == '\x0b' || c == '\x0c'

/-- Strip leading and trailing Python whitespace. -/
def trimWs (l : List Char) : List Char :=
  ((l.dropWhile pyWs).reverse.dropWhile pyWs).reverse

/-- Tail of a Python integer literal after its first digit: digits with
single underscores allowed between digits (`afterUnderscore` records
whether the previous character was an underscore). -/
def usRun (afterUnderscore : Bool) : List Char → Bool
  | [] => !afterUnderscore
  | c :: rest =>
    if c == '_' then
      if afterUnderscore then false else usRun true rest
    else c.isDigit && usRun false rest

/-- Decimal value of a digit list (underscores already removed). -/
def natOfDigits (l : List Char) : Nat :=
  l.foldl (fun acc c => acc * 10 + (c.toNat - 48)) 0

/-- Unsigned part of Python `int()`: a digit followed by `usTail`. -/
def pyIntDigits (l : List Char) : Option Nat :=
  match l with
  | [] => none
  | c :: rest =>
    if c.isDigit && usRun false rest then
      some (natOfDigits (l.filter (fun ch => !(ch == '_'))))
    else none

/-- ASCII model of Python `int(str)`: returns `none` where Python raises
`ValueError`. -/
def pyInt? (l : List Char) : Option Int :=
  match trimWs l with
  | '+' :: rest => (pyIntDigits rest).map (fun n => (n : Int))
  | '-' :: rest => (pyIntDigits rest).map (fun n => -(n : Int))
  | t => (pyIntDigits t).map (fun n => (n : Int))

/-- Model of Python `str.split(sep)` for a single-character separator. -/
def splitOnChar (sep : Char) : List Char → List (List Char)
  | [] => [[]]
  | c :: rest =>
    if c == sep then [] :: splitOnChar sep rest
    else
      match splitOnChar sep rest with
      | [] => [[c]]
      | p :: ps => (c :: p) :: ps

/-- `parse_duration` on the character list of the duration string:
rejects empty and the literal "0", then splits on `:` and converts
one-colon strings as `m:ss` and two-colon strings as `h:mm:ss`; any
`int()` failure yields `none`. -/
def parse_duration_chars (l : List Char) : Option Int :=
  if l = [] ∨ l = ['0'] then none
  else if l.count ':' = 1 then
    match (splitOnChar ':' l).map pyInt? with
    | [some m, some s] => some (m * 60 + s)
    | _ => none
  else if l.count ':' = 2 then
    match (splitOnChar ':' l).map pyInt? with
    | [some h, some m, some s] => some (h * 3600 + m * 60 + s)
    | _ => none
  else none

/-- `parse_duration(duration_str)`: `duration_str` may be absent
(missing `<duration>` element). -/
def parse_duration (d : Option String) : Option Int :=
  match d with
  | none => none
  | some s => parse_duration_chars s.data

/-- The acceptance test at the top of the per-song loop: a song is built and
processed further only when `parse_duration` returned a value
(`if parsed_duration is not None`). -/
def song_kept_by_duration (d : Option String) : Bool :=
  (parse_duration d).isSome

/-- `range(a, b)` of Python, as a list of `Int`. -/
def intRange (a b : Int) : List Int :=
  (List.range (b - a).toNat).map (fun i => a + i)

/-- `parse_year_filter`: absent/empty means no filter; a string containing
`-` is split and both parts converted by `int()` giving an inclusive
range; otherwise the whole string is converted by `int()` giving a
singleton list; any `int()` failure degrades to `none` (no filter). -/
def parse_year_filter (yf : Option String) : Option (List Int) :=
  match yf with
  | none => none
  | some s =>
    if s.data = [] then none
    else if s.data.contains '-' then
      match (splitOnChar '-' s.data).map pyInt? with
      | [some a, some b] => some (intRange a (b + 1))
      | _ => none
    else (pyInt? s.data).map (fun y => [y])

/-- The per-record year test of the filter stage:
`years is None or song_year in years`. -/
def year_match (years : Option (List Int)) (y : Int) : Bool :=
  match years with
  | none => true
  | some l => l.contains y

/-- ASCII model of the regex word character class (`\w`). -/
def isWordChar (c : Char) : Bool := c.isAlphanum || c == '_'

/-- Decimal value of one digit character. -/
def digitVal (c : Char) : Nat := c.toNat - 48

/-- One attempt of the regex `\b(19|20)\d{2}\b` at the start of the given
suffix; `prev` is the character immediately before the suffix (`none` at
the start of the string), used for the left word boundary. -/
def yearAt (prev : Option Char) : List Char → Option Nat
  | c1 :: c2 :: c3 :: c4 :: rest =>
    if (match prev with | none => true | some p => !isWordChar p)
        && ((c1 == '1' && c2 == '9') || (c1 == '2' && c2 == '0'))
        && c3.isDigit && c4.isDigit
        && (match rest with | [] => true | n :: _ => !isWordChar n) then
      some (digitVal c1 * 1000 + digitVal c2 * 100 + digitVal c3 * 10 + digitVal c4)
    else none
  | _ => none

/-- `re.search`: try the pattern at each position from the left, returning
the first match. -/
def searchYear : Option Char → List Char → Option Nat
  | _, [] => none
  | prev, c :: rest =>
    match yearAt prev (c :: rest) with
    | some y => some y
    | none => searchYear (some c) rest

/-- `extract_year_from_comment(comment)`. -/
def extract_year_from_comment (comment : Option String) : Option Nat :=
  match comment with
  | none => none
  | some s => if s.data = [] then none else searchYear none s.data

/-- A validated song record (the dictionary built for each accepted
`<song>` element, after duration and date validation).  Only the fields
consumed by the deduplication, segmentation and aggregation stages are
modelled; `datetime` is the parsed timestamp in seconds and `duration`
the parsed duration in seconds. -/
structure Song where
  artist : Option String
  album : Option String
  title : Option String
  date : Option String
  playerName : Option String
  duration : Int
  datetime : Int
  file_format : String
  comment_year : Option Nat
deriving DecidableEq, Inhabited

/-- Python truthiness of an optional string (`None` and `""` are falsy). -/
def truthy : Option String → Bool
  | none => false
  | some s => decide (s ≠ "")

/-- The guard `if song["title"] and song["date"]` of the deduplicator. -/
def hasKey (s : Song) : Bool := truthy s.title && truthy s.date

/-- The parallel-play key `(song["title"], song["date"])` (only meaningful
under `hasKey`). -/
def theKey (s : Song) : String × String := (s.title.getD "", s.date.getD "")

/-- Membership of a song in the parallel-play group of key `k`. -/
def inGroup (k : String × String) (s : Song) : Bool :=
  hasKey s && decide (theKey s = k)

/-- `parallel_plays[k]`: the ordered list of accepted songs with key `k`. -/
def groupOf (songs : List Song) (k : String × String) : List Song :=
  songs.filter (inGroup k)

/-- First-occurrence deduplication, keeping the first copy of each element
(the key order of a Python insertion-ordered dict). -/
def firstOccsAux [DecidableEq α] : List α → List α → List α
  | [], _ => []
  | x :: rest, seen =>
    if x ∈ seen then firstOccsAux rest seen
    else x :: firstOccsAux rest (x :: seen)

/-- The distinct elements of a list in first-occurrence order. -/
def firstOccs [DecidableEq α] (l : List α) : List α := firstOccsAux l []

/-- The keys of the keyed songs, in order. -/
def keyedSongs (songs : List Song) : List (String × String) :=
  (songs.filter hasKey).map theKey

/-- The keys of `parallel_plays` in dict insertion order. -/
def keysInOrder (songs : List Song) : List (String × String) :=
  firstOccs (keyedSongs songs)

/-- First deduplication pass: songs without a key, and songs whose group
has at most one member, pass through in input order. -/
def dedupPass1 (songs : List Song) : List Song :=
  songs.filter (fun s => !hasKey s || decide ((groupOf songs (theKey s)).length ≤ 1))

/-- Keys whose group has two or more members, in dict order. -/
def bigKeys (songs : List Song) : List (String × String) :=
  (keysInOrder songs).filter (fun k => decide (2 ≤ (groupOf songs k).length))

/-- Second deduplication pass: one representative (the first member) per
group of size at least two. -/
def dedupReps (songs : List Song) : List Song :=
  (bigKeys songs).filterMap (fun k => (groupOf songs k).head?)

/-- `deduplicated_songs` as built by the two loops of the deduplicator. -/
def dedupSongs (songs : List Song) : List Song :=
  dedupPass1 songs ++ dedupReps songs

/-- `parallel_play_count`: the number of duplicate entries excluded. -/
def parallelPlayCount (songs : List Song) : Nat :=
  ((bigKeys songs).map (fun k => (groupOf songs k).length - 1)).sum

/-- A listening session (the `current_session` dictionary): `stop` models
the source field `end` (a Lean keyword). -/
structure Session where
  start : Int
  stop : Int
  songs : List Song
  duration : Int
deriving DecidableEq, Inhabited

/-- The session opened for song `s`. -/
def newSession (s : Song) : Session :=
  { start := s.datetime
    stop := s.datetime + s.duration
    songs := [s]
    duration := s.duration }

/-- Appending song `s` to the current session. -/
def extendSession (cur : Session) (s : Song) : Session :=
  { start := cur.start
    stop := s.datetime + s.duration
    songs := cur.songs ++ [s]
    duration := cur.duration + s.duration }

/-- The session loop from the second record on: `prev` is the previous
record, `cur` the open session; a gap above 1800 seconds closes `cur`. -/
def sessionsAux (prev : Song) (cur : Session) : List Song → List Session
  | [] => [cur]
  | s :: rest =>
    if 1800 < s.datetime - prev.datetime then
      cur :: sessionsAux s (newSession s) rest
    else
      sessionsAux s (extendSession cur s) rest

/-- The full session-segmentation loop over the time-sorted records. -/
def sessionize : List Song → List Session
  | [] => []
  | s :: rest => sessionsAux s (newSession s) rest

/-- The album loop: an `(album, artist)` pair is recorded when the album is
truthy and differs from `last_album`, which is then updated. -/
def playedAlbumsAux (lastAlbum : Option String) :
    List Song → List (Option String × Option String)
  | [] => []
  | s :: rest =>
    if truthy s.album && decide (s.album ≠ lastAlbum) then
      (s.album, s.artist) :: playedAlbumsAux s.album rest
    else
      playedAlbumsAux lastAlbum rest

/-- `played_albums` (the source starts with `last_album = None`). -/
def played_albums (songs : List Song) : List (Option String × Option String) :=
  playedAlbumsAux none songs

/-- The items of `Counter(l)`: distinct elements in first-occurrence
(insertion) order, each with its multiplicity. -/
def countItems [DecidableEq α] (l : List α) : List (α × Nat) :=
  (firstOccs l).map (fun k => (k, l.count k))

/-- Stable descending insertion by count: an element goes after every
element with a count at least as large. -/
def insertByCount [DecidableEq α] (x : α × Nat) : List (α × Nat) → List (α × Nat)
  | [] => [x]
  | y :: ys => if y.2 < x.2 then x :: y :: ys else y :: insertByCount x ys

/-- Stable sort by descending count (the order of `Counter.most_common`). -/
def sortByCountDesc [DecidableEq α] (l : List (α × Nat)) : List (α × Nat) :=
  l.foldl (fun acc x => insertByCount x acc) []

/-- `Counter(l).most_common(n)`. -/
def mostCommon [DecidableEq α] (l : List α) (n : Nat) : List (α × Nat) :=
  (sortByCountDesc (countItems l)).take n

/-- `top_albums` for a given limit `n`. -/
def top_albums (songs : List Song) (n : Nat) : List ((Option String × Option String) × Nat) :=
  mostCommon (played_albums songs) n

/-- `top_count or 10` (`None` and `0` are falsy). -/
def topOr (t : Option Nat) : Nat :=
  match t with
  | none => 10
  | some k => if k = 0 then 10 else k

/-- `statistics.median` over integers, as a rational. -/
def medianInt (l : List Int) : Rat :=
  let s := List.insertionSort (fun a b : Int => a ≤ b) l
  let n := s.length
  if n % 2 = 1 then ((s.getD (n / 2) 0 : Int) : Rat)
  else (((s.getD (n / 2 - 1) 0 : Int) : Rat) + ((s.getD (n / 2) 0 : Int) : Rat)) / 2

/-- The statistics computed by `analyze_music_logs` over the validated
records (calendar-based histograms - per month/year/weekday/hour and
session starting hours - are outside the model, which carries timestamps
as plain seconds). -/
structure Stats where
  totalSongs : Nat
  uniqueAlbums : Nat
  uniqueTitles : Nat
  uniqueArtists : Nat
  topAlbums : List ((Option String × Option String) × Nat)
  topTitles : List ((Option String × Option String) × Nat)
  topArtists : List (Option String × Nat)
  formatCounts : List (String × Nat)
  playerCounts : List (Option String × Nat)
  avgDuration : Rat
  medianDuration : Rat
  minDuration : Int
  maxDuration : Int
  totalDuration : Int
  sessions : List Session
  sessionCount : Nat
  avgSessionDuration : Rat
  medianSessionDuration : Rat
  maxSessionDuration : Int
  avgSongsPerSession : Rat
  commentYearCounts : List (Nat × Nat)
  parallelPlaysDetected : Nat
  duplicatesExcluded : Nat
  discardedCount : Nat
deriving DecidableEq, Inhabited

/-- The statistics part of `analyze_music_logs`, from the accepted
(validated, filtered) records on: `if not songs` exits early with no
result; otherwise the records are deduplicated, sorted by timestamp,
segmented into sessions and aggregated. -/
def analyze_music_logs (songs : List Song) (discarded : Nat) (topCount : Option Nat) :
    Option Stats :=
  if songs.isEmpty then none
  else
    let deduped := dedupSongs songs
    let sorted := List.insertionSort (fun a b : Song => a.datetime ≤ b.datetime) deduped
    let durations := sorted.map Song.duration
    let sessions := sessionize sorted
    let sessionDurations := sessions.map Session.duration
    let sessionSongCounts := sessions.map (fun ss => ss.songs.length)
    some
      { totalSongs := sorted.length
        uniqueAlbums := ((sorted.filter (fun s => truthy s.album)).map Song.album).dedup.length
        uniqueTitles := ((sorted.filter (fun s => truthy s.title)).map Song.title).dedup.length
        uniqueArtists := ((sorted.filter (fun s => truthy s.artist)).map Song.artist).dedup.length
        topAlbums := mostCommon (played_albums sorted) (topOr topCount)
        topTitles := mostCommon ((sorted.filter (fun s => truthy s.title)).map
          (fun s => (s.title, s.artist))) (topOr topCount)
        topArtists := mostCommon ((sorted.filter (fun s => truthy s.artist)).map Song.artist)
          (topOr topCount)
        formatCounts := sortByCountDesc (countItems (sorted.map Song.file_format))
        playerCounts := sortByCountDesc (countItems
          ((sorted.filter (fun s => truthy s.playerName)).map Song.playerName))
        avgDuration := if durations.isEmpty then 0
          else (durations.map (fun d => (d : Rat))).sum / (durations.length : Rat)
        medianDuration := if durations.isEmpty then 0 else medianInt durations
        minDuration := (durations.min?).getD 0
        maxDuration := (durations.max?).getD 0
        totalDuration := durations.sum
        sessions := sessions
        sessionCount := sessions.length
        avgSessionDuration := if sessionDurations.isEmpty then 0
          else (sessionDurations.map (fun d => (d : Rat))).sum / (sessionDurations.length : Rat)
        medianSessionDuration := if sessionDurations.isEmpty then 0
          else medianInt sessionDurations
        maxSessionDuration := (sessionDurations.max?).getD 0
        avgSongsPerSession := if sessionSongCounts.isEmpty then 0
          else (sessionSongCounts.map (fun c => (c : Rat))).sum / (sessionSongCounts.length : Rat)
        commentYearCounts := List.insertionSort (fun p q : Nat × Nat => q.1 ≤ p.1)
          (countItems (sorted.filterMap Song.comment_year))
        parallelPlaysDetected := (bigKeys songs).length
        duplicatesExcluded := parallelPlayCount songs
        discardedCount := discarded }


/-! ### Lemmas about first-occurrence deduplication -/

theorem mem_firstOccsAux [DecidableEq α] {x : α} :
    ∀ (l seen : List α), x ∈ firstOccsAux l seen ↔ x ∈ l ∧ x ∉ seen := by
  intro l
  induction l with
  | nil => intro seen; simp [firstOccsAux]
  | cons a rest ih =>
    intro seen
    simp only [firstOccsAux]
    by_cases h : a ∈ seen
    · rw [if_pos h, ih]
      constructor
      · rintro ⟨hx, hs⟩
        exact ⟨List.mem_cons_of_mem _ hx, hs⟩
      · rintro ⟨hx, hs⟩
        rcases List.mem_cons.mp hx with rfl | hx
        · exact absurd h hs
        · exact ⟨hx, hs⟩
    · rw [if_neg h]
      constructor
      · intro hx
        rcases List.mem_cons.mp hx with rfl | hx
        · exact ⟨List.mem_cons_self _ _, h⟩
        · have hx2 := (ih _).mp hx
          refine ⟨List.mem_cons_of_mem _ hx2.1, ?_⟩
          intro hs
          exact hx2.2 (List.mem_cons_of_mem _ hs)
      · rintro ⟨hx, hs⟩
        rcases List.mem_cons.mp hx with rfl | hx
        · exact List.mem_cons_self _ _
        · by_cases hxa : x = a
          · subst hxa
            exact List.mem_cons_self _ _
          · refine List.mem_cons_of_mem _ ((ih _).mpr ⟨hx, ?_⟩)
            simp [hs, hxa]

theorem nodup_firstOccsAux [DecidableEq α] :
    ∀ (l seen : List α), (firstOccsAux l seen).Nodup := by
  intro l
  induction l with
  | nil => intro seen; simp [firstOccsAux]
  | cons a rest ih =>
    intro seen
    simp only [firstOccsAux]
    by_cases h : a ∈ seen
    · rw [if_pos h]
      exact ih seen
    · rw [if_neg h]
      refine List.nodup_cons.mpr ⟨?_, ih _⟩
      intro hmem
      exact ((mem_firstOccsAux _ _).mp hmem).2 (List.mem_cons_self _ _)

theorem mem_firstOccs [DecidableEq α] {x : α} {l : List α} :
    x ∈ firstOccs l ↔ x ∈ l := by
  simp [firstOccs, mem_firstOccsAux]

theorem nodup_firstOccs [DecidableEq α] (l : List α) : (firstOccs l).Nodup :=
  nodup_firstOccsAux l []

theorem firstOccsAux_filter [DecidableEq α] (p : α → Bool) :
    ∀ (l seen seen2 : List α),
      (∀ x, p x = true → (x ∈ seen ↔ x ∈ seen2)) →
      firstOccsAux (l.filter p) seen = (firstOccsAux l seen2).filter p := by
  intro l
  induction l with
  | nil => intro seen seen2 _; simp [firstOccsAux]
  | cons a rest ih =>
    intro seen seen2 h
    by_cases hp : p a = true
    · rw [List.filter_cons_of_pos hp]
      simp only [firstOccsAux]
      by_cases ha : a ∈ seen2
      · rw [if_pos ((h a hp).mpr ha), if_pos ha]
        exact ih seen seen2 h
      · rw [if_neg (fun hc => ha ((h a hp).mp hc)), if_neg ha,
          List.filter_cons_of_pos hp]
        congr 1
        apply ih
        intro x hx
        by_cases hxa : x = a
        · subst hxa; simp
        · simp [hxa, h x hx]
    · rw [List.filter_cons_of_neg (by simp [hp])]
      simp only [firstOccsAux]
      by_cases ha : a ∈ seen2
      · rw [if_pos ha]
        exact ih seen seen2 h
      · rw [if_neg ha, List.filter_cons_of_neg (by simp [hp])]
        apply ih
        intro x hx
        have hxa : x ≠ a := by
          intro hc
          subst hc
          simp [hx] at hp
        simp [hxa, h x hx]

theorem firstOccs_filter [DecidableEq α] (p : α → Bool) (l : List α) :
    firstOccs (l.filter p) = (firstOccs l).filter p :=
  firstOccsAux_filter p l [] [] (by simp)

/-! ### Lemmas about the parallel-play deduplicator -/

theorem inGroup_iff {k : String × String} {s : Song} :
    inGroup k s = true ↔ hasKey s = true ∧ theKey s = k := by
  simp [inGroup]

theorem mem_groupOf {songs : List Song} {k : String × String} {s : Song} :
    s ∈ groupOf songs k ↔ s ∈ songs ∧ hasKey s = true ∧ theKey s = k := by
  simp [groupOf, List.mem_filter, inGroup_iff]

theorem inGroup_eq_false {songs : List Song} {a k : String × String} (hne : a ≠ k)
    {r : Song} (hr : r ∈ groupOf songs a) : inGroup k r = false := by
  obtain ⟨_, h1, h2⟩ := mem_groupOf.mp hr
  simp only [inGroup, h1, Bool.true_and, h2]
  exact decide_eq_false hne

theorem mem_keysInOrder {songs : List Song} {k : String × String} :
    k ∈ keysInOrder songs ↔ ∃ s, s ∈ songs ∧ hasKey s = true ∧ theKey s = k := by
  unfold keysInOrder keyedSongs
  rw [mem_firstOccs]
  simp only [List.mem_map, List.mem_filter]
  constructor
  · rintro ⟨s, ⟨hs, hk⟩, ht⟩
    exact ⟨s, hs, hk, ht⟩
  · rintro ⟨s, hs, hk, ht⟩
    exact ⟨s, ⟨hs, hk⟩, ht⟩

theorem nodup_bigKeys (songs : List Song) : (bigKeys songs).Nodup :=
  (nodup_firstOccs _).filter _

theorem mem_bigKeys {songs : List Song} {k : String × String} :
    k ∈ bigKeys songs ↔ k ∈ keysInOrder songs ∧ 2 ≤ (groupOf songs k).length := by
  simp [bigKeys, List.mem_filter]

theorem keysInOrder_of_big {songs : List Song} {k : String × String}
    (h2 : 2 ≤ (groupOf songs k).length) : k ∈ keysInOrder songs := by
  have hne : groupOf songs k ≠ [] := by
    intro hc
    rw [hc] at h2
    simp at h2
  obtain ⟨s, hs⟩ := List.exists_mem_of_ne_nil _ hne
  obtain ⟨h1, h2k, h3⟩ := mem_groupOf.mp hs
  exact mem_keysInOrder.mpr ⟨s, h1, h2k, h3⟩

theorem filter_reps_not_mem {songs : List Song} {k : String × String} :
    ∀ ks : List (String × String), k ∉ ks →
      (ks.filterMap (fun x => (groupOf songs x).head?)).filter (inGroup k) = [] := by
  intro ks
  induction ks with
  | nil => intro _; rfl
  | cons a ks ih =>
    intro hk
    have hka : a ≠ k := by
      intro h
      exact hk (h ▸ List.mem_cons_self _ _)
    have hks : k ∉ ks := fun h => hk (List.mem_cons_of_mem _ h)
    simp only [List.filterMap_cons]
    cases hh : (groupOf songs a).head? with
    | none => exact ih hks
    | some r =>
      have hr : r ∈ groupOf songs a := List.mem_of_mem_head? (by simp [hh])
      rw [List.filter_cons_of_neg (by simp [inGroup_eq_false hka hr])]
      exact ih hks

theorem filter_reps_mem {songs : List Song} {k : String × String}
    (hbig : 2 ≤ (groupOf songs k).length) :
    ∀ ks : List (String × String), ks.Nodup → k ∈ ks →
      (ks.filterMap (fun x => (groupOf songs x).head?)).filter (inGroup k)
        = (groupOf songs k).head?.toList := by
  intro ks
  induction ks with
  | nil => intro _ h; cases h
  | cons a ks ih =>
    intro hnd hk
    obtain ⟨hna, hnd2⟩ := List.nodup_cons.mp hnd
    simp only [List.filterMap_cons]
    by_cases hak : a = k
    · subst hak
      obtain ⟨r, hr⟩ : ∃ r, (groupOf songs a).head? = some r := by
        cases hg : groupOf songs a with
        | nil => rw [hg] at hbig; simp at hbig
        | cons r t => exact ⟨r, rfl⟩
      rw [hr]
      have hrm : r ∈ groupOf songs a := List.mem_of_mem_head? (by simp [hr])
      have hig : inGroup a r = true := by
        obtain ⟨_, h1, h2⟩ := mem_groupOf.mp hrm
        simp [inGroup, h1, h2]
      rw [List.filter_cons_of_pos hig, filter_reps_not_mem ks hna]
      simp [hr]
    · have hk2 : k ∈ ks := by
        rcases List.mem_cons.mp hk with h | h
        · exact absurd h.symm hak
        · exact h
      cases hh : (groupOf songs a).head? with
      | none => exact ih hnd2 hk2
      | some r =>
        have hr : r ∈ groupOf songs a := List.mem_of_mem_head? (by simp [hh])
        rw [List.filter_cons_of_neg (by simp [inGroup_eq_false hak hr])]
        exact ih hnd2 hk2

theorem filter_pass1_big {songs : List Song} {k : String × String}
    (hbig : 2 ≤ (groupOf songs k).length) :
    (dedupPass1 songs).filter (inGroup k) = [] := by
  unfold dedupPass1
  rw [List.filter_filter]
  apply List.filter_eq_nil_iff.mpr
  intro s _ hc
  simp only [Bool.and_eq_true] at hc
  obtain ⟨hg, hq⟩ := hc
  obtain ⟨hks, htk⟩ := inGroup_iff.mp hg
  rw [hks] at hq
  simp only [Bool.not_true, Bool.false_or, decide_eq_true_eq, htk] at hq
  omega

theorem filter_pass1_small {songs : List Song} {k : String × String}
    (hsmall : (groupOf songs k).length ≤ 1) :
    (dedupPass1 songs).filter (inGroup k) = groupOf songs k := by
  unfold dedupPass1 groupOf
  rw [List.filter_filter]
  have hsmall2 : (List.filter (inGroup k) songs).length ≤ 1 := hsmall
  apply List.filter_congr
  intro s _
  by_cases hg : inGroup k s = true
  · have htk := (inGroup_iff.mp hg).2
    simp [hg, htk, hsmall2]
  · simp only [Bool.not_eq_true] at hg
    simp [hg]


theorem filter_map_comm (f : α → β) (p : β → Bool) :
    ∀ l : List α, (l.map f).filter p = (l.filter (fun a => p (f a))).map f := by
  intro l
  induction l with
  | nil => rfl
  | cons a l ih =>
    by_cases h : p (f a) = true
    · have h2 : List.filter (fun x => p (f x)) (a :: l)
          = a :: List.filter (fun x => p (f x)) l := List.filter_cons_of_pos h
      rw [List.map_cons, List.filter_cons_of_pos h, h2, List.map_cons, ih]
    · have h2 : List.filter (fun x => p (f x)) (a :: l)
          = List.filter (fun x => p (f x)) l := List.filter_cons_of_neg h
      rw [List.map_cons, List.filter_cons_of_neg h, h2, ih]

theorem keyedSongs_removal (songs : List Song) (k : String × String) :
    keyedSongs (songs.filter (fun s => !inGroup k s))
      = (keyedSongs songs).filter (fun x => decide (x ≠ k)) := by
  unfold keyedSongs
  rw [List.filter_filter, filter_map_comm, List.filter_filter]
  congr 1
  apply List.filter_congr
  intro s _
  cases hks : hasKey s with
  | false => simp [inGroup, hks]
  | true => simp [inGroup, hks, decide_not]

theorem groupOf_removal_ne {songs : List Song} {k kk : String × String} (h : kk ≠ k) :
    groupOf (songs.filter (fun s => !inGroup k s)) kk = groupOf songs kk := by
  unfold groupOf
  rw [List.filter_filter]
  apply List.filter_congr
  intro s _
  by_cases hg : inGroup kk s = true
  · have hf : inGroup k s = false := by
      obtain ⟨h1, h2⟩ := inGroup_iff.mp hg
      simp only [inGroup, h1, Bool.true_and, h2]
      exact decide_eq_false (fun hc => h hc)
    simp [hg, hf]
  · simp only [Bool.not_eq_true] at hg
    simp [hg]

theorem keysInOrder_removal (songs : List Song) (k : String × String) :
    keysInOrder (songs.filter (fun s => !inGroup k s))
      = (keysInOrder songs).filter (fun x => decide (x ≠ k)) := by
  unfold keysInOrder
  rw [keyedSongs_removal, firstOccs_filter]

theorem bigKeys_removal (songs : List Song) (k : String × String) :
    bigKeys (songs.filter (fun s => !inGroup k s))
      = (bigKeys songs).filter (fun x => decide (x ≠ k)) := by
  unfold bigKeys
  rw [keysInOrder_removal, List.filter_filter, List.filter_filter]
  apply List.filter_congr
  intro x _
  by_cases hxk : x = k
  · subst hxk
    simp
  · rw [groupOf_removal_ne hxk]
    exact Bool.and_comm _ _

theorem ppc_removal (songs : List Song) (k : String × String) :
    parallelPlayCount (songs.filter (fun s => !inGroup k s))
      = (((bigKeys songs).filter (fun x => decide (x ≠ k))).map
          (fun x => (groupOf songs x).length - 1)).sum := by
  unfold parallelPlayCount
  rw [bigKeys_removal]
  congr 1
  apply List.map_congr_left
  intro x hx
  have hxk : x ≠ k := by
    have h2 := (List.mem_filter.mp hx).2
    simpa using h2
  rw [groupOf_removal_ne hxk]

theorem sum_map_split [DecidableEq α] (f : α → Nat) :
    ∀ (l : List α) (k : α), l.Nodup → k ∈ l →
      (l.map f).sum = f k + ((l.filter (fun x => decide (x ≠ k))).map f).sum := by
  intro l
  induction l with
  | nil => intro k _ hk; cases hk
  | cons a l ih =>
    intro k hnd hk
    obtain ⟨hna, hnd2⟩ := List.nodup_cons.mp hnd
    by_cases hak : a = k
    · subst hak
      have hfl : l.filter (fun x => decide (x ≠ a)) = l := by
        apply List.filter_eq_self.mpr
        intro x hx
        exact decide_eq_true (fun hc => hna (hc ▸ hx))
      rw [List.map_cons, List.sum_cons, List.filter_cons_of_neg (by simp), hfl]
    · have hk2 : k ∈ l := by
        rcases List.mem_cons.mp hk with h | h
        · exact absurd h.symm hak
        · exact h
      rw [List.map_cons, List.sum_cons, ih k hnd2 hk2,
        List.filter_cons_of_pos (by simp [hak]), List.map_cons, List.sum_cons]
      omega

/-- Two records that agree on (empty) title and on date, used to exhibit the
behaviour of the deduplicator on empty-string titles. -/
def cSongE1 : Song :=
  { artist := some "X", album := none, title := some "",
    date := some "2023/01/01 10:00:00", playerName := some "P1", duration := 180,
    datetime := 0, file_format := "mp3", comment_year := none }

/-- Like `cSongE1` but logged by a second player. -/
def cSongE2 : Song := { cSongE1 with playerName := some "P2" }

/-- C1, counterexample: `cSongE1` and `cSongE2` are two distinct validated
records sharing the identical (title, raw date string) key `("", date)` -
a maximal group of size 2 - yet the deduplicated output retains both of
them and the duplicates-excluded counter stays 0, because the code groups
only records whose title and date are truthy (non-empty). -/
theorem c1_counterexample :
    cSongE1.title = some "" ∧ cSongE2.title = some "" ∧ cSongE1.date = cSongE2.date
    ∧ cSongE1 ≠ cSongE2
    ∧ dedupSongs [cSongE1, cSongE2] = [cSongE1, cSongE2]
    ∧ parallelPlayCount [cSongE1, cSongE2] = 0 :=
  ⟨rfl, rfl, rfl, by decide, by decide, by decide⟩

/-- C1 (amended): for every group keyed by a non-empty title and date
(`groupOf songs k` with at least two members), the deduplicated output
contains exactly one member of the group, namely its first member in input
order; removing the group from the input lowers the duplicates-excluded
counter by exactly (group size - 1); and groups of size 1 pass through
unchanged.  Records with a missing or empty title or date are never
grouped. -/
theorem c1_amended (songs : List Song) (k : String × String)
    (h2 : 2 ≤ (groupOf songs k).length) :
    (dedupSongs songs).filter (inGroup k) = (groupOf songs k).head?.toList
    ∧ parallelPlayCount songs
        = ((groupOf songs k).length - 1)
          + parallelPlayCount (songs.filter (fun s => !inGroup k s))
    ∧ ∀ kk, (groupOf songs kk).length = 1 →
        (dedupSongs songs).filter (inGroup kk) = groupOf songs kk := by
  have hkbig : k ∈ bigKeys songs := mem_bigKeys.mpr ⟨keysInOrder_of_big h2, h2⟩
  refine ⟨?_, ?_, ?_⟩
  · unfold dedupSongs dedupReps
    rw [List.filter_append, filter_pass1_big h2,
      filter_reps_mem h2 _ (nodup_bigKeys songs) hkbig]
    exact List.nil_append _
  · rw [ppc_removal songs k]
    unfold parallelPlayCount
    exact sum_map_split (fun x => (groupOf songs x).length - 1) (bigKeys songs) k
      (nodup_bigKeys songs) hkbig
  · intro kk hkk
    unfold dedupSongs dedupReps
    have hnb : kk ∉ bigKeys songs := by
      intro hc
      have h3 := (mem_bigKeys.mp hc).2
      omega
    rw [List.filter_append, filter_pass1_small (by omega),
      filter_reps_not_mem _ hnb, List.append_nil]

/-- A record of a parallel-play pair (same title and date, two players). -/
def cSongA : Song :=
  { artist := some "X", album := none, title := some "Song A",
    date := some "2023/01/01 10:00:00", playerName := some "P1", duration := 180,
    datetime := 0, file_format := "mp3", comment_year := none }

/-- Like `cSongA` but logged by a second player. -/
def cSongB : Song := { cSongA with playerName := some "P2" }

/-- C1 witness: the amended theorem applied to a concrete group of size 2. -/
theorem c1_amended_witness :
    2 ≤ (groupOf [cSongA, cSongB] ("Song A", "2023/01/01 10:00:00")).length
    ∧ (dedupSongs [cSongA, cSongB]).filter (inGroup ("Song A", "2023/01/01 10:00:00"))
        = (groupOf [cSongA, cSongB] ("Song A", "2023/01/01 10:00:00")).head?.toList :=
  ⟨by decide, (c1_amended [cSongA, cSongB] _ (by decide)).1⟩

/-! ### Conservation of records through deduplication (C9) -/

theorem length_filterMap_of_isSome (f : α → Option β) :
    ∀ l : List α, (∀ x ∈ l, (f x).isSome = true) → (l.filterMap f).length = l.length := by
  intro l
  induction l with
  | nil => intro _; rfl
  | cons a l ih =>
    intro h
    obtain ⟨b, hb⟩ := Option.isSome_iff_exists.mp (h a (List.mem_cons_self _ _))
    rw [List.filterMap_cons, hb]
    simp only [List.length_cons]
    rw [ih (fun x hx => h x (List.mem_cons_of_mem _ hx))]

theorem sum_map_indicator [DecidableEq α] (x : α) :
    ∀ m : List α, m.Nodup →
      (m.map (fun k => if decide (x = k) = true then 1 else 0)).sum
        = if x ∈ m then 1 else 0 := by
  intro m
  induction m with
  | nil => intro _; simp
  | cons a m ih =>
    intro hnd
    obtain ⟨hna, hnd2⟩ := List.nodup_cons.mp hnd
    rw [List.map_cons, List.sum_cons, ih hnd2]
    by_cases hxa : x = a
    · subst hxa
      simp [hna]
    · simp [hxa, List.mem_cons]

theorem sum_map_addf (f g : α → Nat) :
    ∀ l : List α, (l.map (fun x => f x + g x)).sum = (l.map f).sum + (l.map g).sum := by
  intro l
  induction l with
  | nil => rfl
  | cons a l ih =>
    simp only [List.map_cons, List.sum_cons, ih]
    omega

theorem sum_countP_fibers [DecidableEq α] (P : α → Bool) :
    ∀ (l ks : List α), ks.Nodup → (∀ x ∈ l, x ∈ ks) →
      ((ks.filter P).map (fun k => l.countP (fun x => decide (x = k)))).sum
        = l.countP P := by
  intro l
  induction l with
  | nil =>
    intro ks _ _
    simp only [List.countP_nil]
    exact List.sum_eq_zero (by
      intro x hx
      obtain ⟨k, _, rfl⟩ := List.mem_map.mp hx
      rfl)
  | cons a l ih =>
    intro ks hnd hcov
    have hal : ∀ x ∈ l, x ∈ ks := fun x hx => hcov x (List.mem_cons_of_mem _ hx)
    have ha : a ∈ ks := hcov a (List.mem_cons_self _ _)
    simp only [List.countP_cons]
    rw [sum_map_addf (fun k => l.countP (fun x => decide (x = k)))
      (fun k => if decide (a = k) = true then 1 else 0) (ks.filter P)]
    rw [ih ks hnd hal, sum_map_indicator a _ (hnd.filter P)]
    by_cases hPa : P a = true
    · simp [List.mem_filter, ha, hPa]
    · simp [List.mem_filter, hPa]

theorem groupOf_length_countP (songs : List Song) (k : String × String) :
    (groupOf songs k).length = (keyedSongs songs).countP (fun x => decide (x = k)) := by
  unfold groupOf keyedSongs
  rw [← List.countP_eq_length_filter, List.countP_map, List.countP_filter]
  congr 1
  funext s
  simp [Function.comp, inGroup, Bool.and_comm]

theorem sum_map_pred_add_length (f : α → Nat) :
    ∀ l : List α, (∀ x ∈ l, 1 ≤ f x) →
      (l.map (fun x => f x - 1)).sum + l.length = (l.map f).sum := by
  intro l
  induction l with
  | nil => intro _; rfl
  | cons a l ih =>
    intro h
    have ha := h a (List.mem_cons_self _ _)
    have hl := ih (fun x hx => h x (List.mem_cons_of_mem _ hx))
    simp only [List.map_cons, List.sum_cons, List.length_cons]
    omega

/-- C9: deduplication conserves records - the length of the deduplicated
output plus the duplicates-excluded counter equals the length of the
input. -/
theorem c9_dedup_conservation (songs : List Song) :
    (dedupSongs songs).length + parallelPlayCount songs = songs.length := by
  have h1 : (dedupSongs songs).length
      = (dedupPass1 songs).length + (dedupReps songs).length := by
    simp [dedupSongs]
  have h2 : (dedupReps songs).length = (bigKeys songs).length := by
    apply length_filterMap_of_isSome
    intro x hx
    have hb := (mem_bigKeys.mp hx).2
    cases hg : groupOf songs x with
    | nil => rw [hg] at hb; simp at hb
    | cons r t => simp [hg]
  have h3 : (dedupPass1 songs).length
      = songs.countP
          (fun s => !hasKey s || decide ((groupOf songs (theKey s)).length ≤ 1)) := by
    unfold dedupPass1
    rw [← List.countP_eq_length_filter]
  have h4 : parallelPlayCount songs + (bigKeys songs).length
      = ((bigKeys songs).map (fun k => (groupOf songs k).length)).sum := by
    apply sum_map_pred_add_length
    intro x hx
    have hb := (mem_bigKeys.mp hx).2
    omega
  have h5 : ((bigKeys songs).map (fun k => (groupOf songs k).length)).sum
      = songs.countP
          (fun s => hasKey s && decide (2 ≤ (groupOf songs (theKey s)).length)) := by
    have hrw : (bigKeys songs).map (fun k => (groupOf songs k).length)
        = (bigKeys songs).map
            (fun k => (keyedSongs songs).countP (fun x => decide (x = k))) :=
      List.map_congr_left (fun x _ => groupOf_length_countP songs x)
    rw [hrw]
    unfold bigKeys
    rw [sum_countP_fibers (fun x => decide (2 ≤ (groupOf songs x).length))
      (keyedSongs songs) (keysInOrder songs) (nodup_firstOccs _)
      (fun x hx => mem_firstOccs.mpr hx)]
    unfold keyedSongs
    rw [List.countP_map, List.countP_filter]
    congr 1
    funext s
    simp [Function.comp, Bool.and_comm]
  have h6 := List.length_eq_countP_add_countP
    (p := fun s => !hasKey s || decide ((groupOf songs (theKey s)).length ≤ 1)) songs
  have h7 : songs.countP
        (fun s =>
          ¬(!hasKey s || decide ((groupOf songs (theKey s)).length ≤ 1)) = true)
      = songs.countP
          (fun s => hasKey s && decide (2 ≤ (groupOf songs (theKey s)).length)) := by
    congr 1
    funext s
    cases h : hasKey s
    · simp [h]
    · simp only [h, Bool.not_true, Bool.false_or, Bool.true_and, decide_eq_true_eq]
      exact decide_eq_decide.mpr (by omega)
  rw [h1, h2, h3]
  omega


/-! ### Session segmentation (C4, C6) -/

/-- Internal well-formedness of an emitted session, as the claim states it:
nonempty, start at the first member, end at the last member plus its
duration, cumulative duration the sum of member durations, and every
internal gap at most the 1800-second threshold. -/
def sessionWF (sess : Session) : Prop :=
  sess.songs ≠ []
  ∧ (∀ b ∈ sess.songs.head?, sess.start = b.datetime)
  ∧ (∀ a ∈ sess.songs.getLast?, sess.stop = a.datetime + a.duration)
  ∧ sess.duration = (sess.songs.map Song.duration).sum
  ∧ sess.songs.Chain' (fun a b => b.datetime - a.datetime ≤ 1800)

/-- The gap between two adjacent emitted sessions exceeds the threshold. -/
def sessionGapOk (s1 s2 : Session) : Prop :=
  ∀ a ∈ s1.songs.getLast?, ∀ b ∈ s2.songs.head?, 1800 < b.datetime - a.datetime

theorem newSession_wf (s : Song) : sessionWF (newSession s) := by
  refine ⟨by simp [newSession], ?_, ?_, ?_, ?_⟩ <;> simp [newSession]

theorem sessionsAux_spec :
    ∀ (rest : List Song) (prev : Song) (cur : Session),
      cur.songs ≠ [] → cur.songs.getLast? = some prev → sessionWF cur →
      ((sessionsAux prev cur rest).map Session.songs).flatten = cur.songs ++ rest
        ∧ (∀ sess ∈ sessionsAux prev cur rest, sessionWF sess)
        ∧ (sessionsAux prev cur rest).Chain' sessionGapOk
        ∧ (sessionsAux prev cur rest).head?.map (fun sess => sess.songs.head?)
            = some cur.songs.head? := by
  intro rest
  induction rest with
  | nil =>
    intro prev cur hne hlast hwf
    refine ⟨by simp [sessionsAux], ?_, ?_, ?_⟩
    · intro sess hs
      rcases List.mem_singleton.mp hs with rfl
      exact hwf
    · simp [sessionsAux]
    · simp [sessionsAux]
  | cons s rest ih =>
    intro prev cur hne hlast hwf
    by_cases hgap : 1800 < s.datetime - prev.datetime
    · have hnew_ne : (newSession s).songs ≠ [] := by simp [newSession]
      have hnew_last : (newSession s).songs.getLast? = some s := by simp [newSession]
      obtain ⟨ihj, ihwf, ihch, ihhd⟩ := ih s (newSession s) hnew_ne hnew_last (newSession_wf s)
      simp only [sessionsAux, if_pos hgap]
      refine ⟨?_, ?_, ?_, ?_⟩
      · rw [List.map_cons, List.flatten_cons, ihj]
        simp [newSession]
      · intro sess hs
        rcases List.mem_cons.mp hs with rfl | hs
        · exact hwf
        · exact ihwf sess hs
      · rw [List.chain'_cons']
        refine ⟨?_, ihch⟩
        intro sess0 hhd
        cases hout : (sessionsAux s (newSession s) rest).head? with
        | none => rw [hout] at hhd; cases hhd
        | some s0 =>
          rw [hout] at hhd ihhd
          have hs0 : sess0 = s0 := by
            cases hhd
            rfl
          subst hs0
          have hh : sess0.songs.head? = (newSession s).songs.head? := by
            simpa using ihhd
          intro a ha b hb
          rw [hlast] at ha
          cases ha
          rw [hh] at hb
          simp only [newSession, List.head?_cons] at hb
          cases hb
          exact hgap
      · rfl
    · have hcur0 : ∃ c0 cs, cur.songs = c0 :: cs := by
        cases hc : cur.songs with
        | nil => exact absurd hc hne
        | cons c0 cs => exact ⟨c0, cs, rfl⟩
      obtain ⟨c0, cs, hc⟩ := hcur0
      have hext_ne : (extendSession cur s).songs ≠ [] := by
        simp [extendSession]
      have hext_last : (extendSession cur s).songs.getLast? = some s := by
        simp only [extendSession]
        exact List.getLast?_concat _
      have hext_hd : (extendSession cur s).songs.head? = cur.songs.head? := by
        simp only [extendSession]
        rw [hc]
        rfl
      have hext_wf : sessionWF (extendSession cur s) := by
        obtain ⟨_, hwf1, hwf2, hwf3, hwf4⟩ := hwf
        refine ⟨hext_ne, ?_, ?_, ?_, ?_⟩
        · intro b hb
          rw [hext_hd] at hb
          simp only [extendSession]
          exact hwf1 b hb
        · intro a ha
          rw [hext_last] at ha
          cases ha
          rfl
        · simp only [extendSession, List.map_append, List.sum_append, hwf3]
          simp
        · simp only [extendSession]
          rw [List.chain'_append]
          refine ⟨hwf4, List.chain'_singleton _, ?_⟩
          intro x hx y hy
          rw [hlast] at hx
          cases hx
          simp only [List.head?_cons] at hy
          cases hy
          omega
      obtain ⟨ihj, ihwf, ihch, ihhd⟩ := ih s (extendSession cur s) hext_ne hext_last hext_wf
      simp only [sessionsAux, if_neg hgap]
      refine ⟨?_, ihwf, ihch, ?_⟩
      · rw [ihj]
        simp only [extendSession]
        rw [List.append_assoc]
        rfl
      · rw [ihhd, hext_hd]

theorem join_sessionize (songs : List Song) :
    ((sessionize songs).map Session.songs).flatten = songs := by
  cases songs with
  | nil => rfl
  | cons s rest =>
    have h := (sessionsAux_spec rest s (newSession s) (by simp [newSession])
      (by simp [newSession]) (newSession_wf s)).1
    simpa [sessionize, newSession] using h

/-- C4: session segmentation partitions the time-sorted record sequence
exactly at the gaps above 1800 seconds: the emitted sessions flatten back
to the input (so the final open session is always emitted, even with one
member), every session is nonempty with start/end/cumulative-duration as
described and internal gaps at most 1800 seconds, and the gap between
adjacent sessions always exceeds 1800 seconds. -/
theorem c4_sessionize (songs : List Song) :
    ((sessionize songs).map Session.songs).flatten = songs
    ∧ (∀ sess ∈ sessionize songs, sessionWF sess)
    ∧ (sessionize songs).Chain' sessionGapOk := by
  refine ⟨join_sessionize songs, ?_, ?_⟩
  · cases songs with
    | nil => intro sess hs; cases hs
    | cons s rest =>
      have h := (sessionsAux_spec rest s (newSession s) (by simp [newSession])
        (by simp [newSession]) (newSession_wf s)).2.1
      simpa [sessionize] using h
  · cases songs with
    | nil => simp [sessionize]
    | cons s rest =>
      have h := (sessionsAux_spec rest s (newSession s) (by simp [newSession])
        (by simp [newSession]) (newSession_wf s)).2.2.1
      simpa [sessionize] using h

/-- The sortedness precondition of the segmenter, as a boolean test. -/
def sortedByTime : List Song → Bool
  | [] => true
  | [_] => true
  | a :: b :: rest => decide (a.datetime ≤ b.datetime) && sortedByTime (b :: rest)

/-- C6: segmentation is idempotent - flattening the sessions produced for an
already sorted sequence and re-running segmentation reproduces exactly the
same sessions (hence the same boundaries). -/
theorem c6_idempotent (songs : List Song) (hsort : sortedByTime songs = true) :
    sessionize (((sessionize songs).map Session.songs).flatten) = sessionize songs := by
  rw [join_sessionize]

/-- A first concrete sorted record (10:00:00, 3 minutes). -/
def wSong1 : Song :=
  { artist := none, album := none, title := some "T1",
    date := some "2023/01/01 10:00:00", playerName := none, duration := 180,
    datetime := 0, file_format := "mp3", comment_year := none }

/-- A second concrete sorted record, 40 minutes later. -/
def wSong2 : Song :=
  { artist := none, album := none, title := some "T2",
    date := some "2023/01/01 10:40:00", playerName := none, duration := 180,
    datetime := 2400, file_format := "mp3", comment_year := none }

/-- C6 witness: the idempotence theorem applied to a concrete sorted list. -/
theorem c6_witness :
    sortedByTime [wSong1, wSong2] = true
    ∧ sessionize (((sessionize [wSong1, wSong2]).map Session.songs).flatten)
        = sessionize [wSong1, wSong2] :=
  ⟨by decide, c6_idempotent [wSong1, wSong2] (by decide)⟩


/-! ### Album continuous-play counting and top-N ranking (C5) -/

/-- Counting exactly at positions where the album differs from the
immediately preceding album (the claim wording), with `prevAlbum` the
album of the immediately preceding record. -/
def countAtAlbumChange (prevAlbum : Option String) :
    List Song → List (Option String × Option String)
  | [] => []
  | s :: rest =>
    if s.album ≠ prevAlbum then (s.album, s.artist) :: countAtAlbumChange s.album rest
    else countAtAlbumChange s.album rest

theorem playedAlbumsAux_filter :
    ∀ (songs : List Song) (la : Option String),
      playedAlbumsAux la songs
        = playedAlbumsAux la (songs.filter (fun s => truthy s.album)) := by
  intro songs
  induction songs with
  | nil => intro la; rfl
  | cons s rest ih =>
    intro la
    by_cases ht : truthy s.album = true
    · have hfc : List.filter (fun x => truthy x.album) (s :: rest)
          = s :: List.filter (fun x => truthy x.album) rest :=
        List.filter_cons_of_pos ht
      rw [hfc]
      simp only [playedAlbumsAux]
      by_cases hc : (truthy s.album && decide (s.album ≠ la)) = true
      · rw [if_pos hc, if_pos hc, ih]
      · rw [if_neg hc, if_neg hc, ih]
    · have hf : truthy s.album = false := by
        cases h2 : truthy s.album
        · rfl
        · exact absurd h2 ht
      have hfc : List.filter (fun x => truthy x.album) (s :: rest)
          = List.filter (fun x => truthy x.album) rest :=
        List.filter_cons_of_neg (by simp [hf])
      rw [hfc]
      simp only [playedAlbumsAux]
      rw [if_neg (by simp [hf])]
      exact ih la

theorem playedAlbumsAux_eq_changes :
    ∀ (l : List Song) (la : Option String),
      (∀ s ∈ l, truthy s.album = true) →
      playedAlbumsAux la l = countAtAlbumChange la l := by
  intro l
  induction l with
  | nil => intro la _; rfl
  | cons s rest ih =>
    intro la h
    have hs := h s (List.mem_cons_self _ _)
    have hrest := fun x hx => h x (List.mem_cons_of_mem _ hx)
    simp only [playedAlbumsAux, countAtAlbumChange]
    by_cases heq : s.album = la
    · rw [if_neg (by simp [heq]), if_neg (by simp [heq]), ← heq]
      exact ih _ hrest
    · rw [if_pos (by simp [hs, heq]), if_pos heq]
      exact congrArg (List.cons _) (ih _ hrest)

theorem played_albums_spec (songs : List Song) :
    played_albums songs
      = countAtAlbumChange none (songs.filter (fun s => truthy s.album)) := by
  unfold played_albums
  rw [playedAlbumsAux_filter]
  exact playedAlbumsAux_eq_changes _ none (fun s hs => (List.mem_filter.mp hs).2)

theorem mem_insertByCount [DecidableEq α] {x y : α × Nat} :
    ∀ l : List (α × Nat), y ∈ insertByCount x l ↔ y = x ∨ y ∈ l := by
  intro l
  induction l with
  | nil => simp [insertByCount]
  | cons a l ih =>
    simp only [insertByCount]
    by_cases h : a.2 < x.2
    · rw [if_pos h]
      simp [List.mem_cons]
    · rw [if_neg h]
      simp only [List.mem_cons, ih]
      tauto

theorem pairwise_insertByCount [DecidableEq α] (x : α × Nat) :
    ∀ l : List (α × Nat), l.Pairwise (fun p q => q.2 ≤ p.2) →
      (insertByCount x l).Pairwise (fun p q => q.2 ≤ p.2) := by
  intro l
  induction l with
  | nil => intro _; simp [insertByCount]
  | cons a l ih =>
    intro hp
    obtain ⟨ha, hl⟩ := List.pairwise_cons.mp hp
    simp only [insertByCount]
    by_cases h : a.2 < x.2
    · rw [if_pos h]
      refine List.pairwise_cons.mpr ⟨?_, hp⟩
      intro z hz
      rcases List.mem_cons.mp hz with rfl | hz
      · omega
      · have := ha z hz
        omega
    · rw [if_neg h]
      refine List.pairwise_cons.mpr ⟨?_, ih hl⟩
      intro z hz
      rcases (mem_insertByCount l).mp hz with rfl | hz
      · omega
      · exact ha z hz

theorem filter_insertByCount_eq [DecidableEq α] (x : α × Nat) (c : Nat) :
    ∀ l : List (α × Nat), l.Pairwise (fun p q => q.2 ≤ p.2) →
      (insertByCount x l).filter (fun p => decide (p.2 = c))
        = if x.2 = c then l.filter (fun p => decide (p.2 = c)) ++ [x]
          else l.filter (fun p => decide (p.2 = c)) := by
  intro l
  induction l with
  | nil =>
    intro _
    by_cases hx : x.2 = c
    · rw [if_pos hx]
      simp [insertByCount, hx]
    · rw [if_neg hx]
      simp [insertByCount, hx]
  | cons a l ih =>
    intro hp
    obtain ⟨ha, hl⟩ := List.pairwise_cons.mp hp
    simp only [insertByCount]
    by_cases h : a.2 < x.2
    · rw [if_pos h]
      by_cases hx : x.2 = c
      · rw [if_pos hx]
        have hnil : (a :: l).filter (fun p => decide (p.2 = c)) = [] := by
          apply List.filter_eq_nil_iff.mpr
          intro p hp2 hc
          simp only [decide_eq_true_eq] at hc
          rcases List.mem_cons.mp hp2 with rfl | hp2
          · omega
          · have := ha p hp2
            omega
        rw [List.filter_cons_of_pos (by simp [hx]), hnil]
        rfl
      · rw [if_neg hx, List.filter_cons_of_neg (by simp [hx])]
    · rw [if_neg h]
      by_cases hx : x.2 = c
      · rw [if_pos hx]
        by_cases hac : a.2 = c
        · rw [List.filter_cons_of_pos (by simp [hac]), List.filter_cons_of_pos (by simp [hac]),
            ih hl, if_pos hx]
          rfl
        · rw [List.filter_cons_of_neg (by simp [hac]), List.filter_cons_of_neg (by simp [hac]),
            ih hl, if_pos hx]
      · rw [if_neg hx]
        by_cases hac : a.2 = c
        · rw [List.filter_cons_of_pos (by simp [hac]), List.filter_cons_of_pos (by simp [hac]),
            ih hl, if_neg hx]
        · rw [List.filter_cons_of_neg (by simp [hac]), List.filter_cons_of_neg (by simp [hac]),
            ih hl, if_neg hx]

theorem sortFold_pairwise [DecidableEq α] :
    ∀ (items acc : List (α × Nat)), acc.Pairwise (fun p q => q.2 ≤ p.2) →
      (items.foldl (fun ac x => insertByCount x ac) acc).Pairwise
        (fun p q => q.2 ≤ p.2) := by
  intro items
  induction items with
  | nil => intro acc h; exact h
  | cons x items ih =>
    intro acc h
    exact ih _ (pairwise_insertByCount x acc h)

theorem sortByCountDesc_pairwise [DecidableEq α] (l : List (α × Nat)) :
    (sortByCountDesc l).Pairwise (fun p q => q.2 ≤ p.2) :=
  sortFold_pairwise l [] (by simp)

theorem sortFold_filter [DecidableEq α] (c : Nat) :
    ∀ (items acc : List (α × Nat)), acc.Pairwise (fun p q => q.2 ≤ p.2) →
      (items.foldl (fun ac x => insertByCount x ac) acc).filter
          (fun p => decide (p.2 = c))
        = acc.filter (fun p => decide (p.2 = c))
          ++ items.filter (fun p => decide (p.2 = c)) := by
  intro items
  induction items with
  | nil => intro acc _; simp
  | cons x items ih =>
    intro acc h
    simp only [List.foldl_cons]
    rw [ih _ (pairwise_insertByCount x acc h), filter_insertByCount_eq x c acc h]
    by_cases hx : x.2 = c
    · rw [if_pos hx, List.filter_cons_of_pos (by simp [hx])]
      simp
    · rw [if_neg hx, List.filter_cons_of_neg (by simp [hx])]

theorem sortByCountDesc_filter [DecidableEq α] (c : Nat) (l : List (α × Nat)) :
    (sortByCountDesc l).filter (fun p => decide (p.2 = c))
      = l.filter (fun p => decide (p.2 = c)) := by
  simpa using sortFold_filter c l [] (by simp)

/-- A record with album "A". -/
def cAlb1 : Song :=
  { artist := some "X", album := some "A", title := some "T1",
    date := some "2023/01/01 10:00:00", playerName := none, duration := 180,
    datetime := 0, file_format := "mp3", comment_year := none }

/-- A record with no album, between the two "A" records. -/
def cAlb2 : Song := { cAlb1 with album := none, title := some "T2", datetime := 200 }

/-- A second record with album "A". -/
def cAlb3 : Song := { cAlb1 with title := some "T3", datetime := 400 }

/-- C5, counterexample: in the sequence [album "A"; no album; album "A"],
the third record's album differs from the immediately preceding record's
album (`some "A"` vs `none`), so by the claim the pair should be counted
there as well (total count 2); the code counts the pair only once because
a record with a falsy album does not update `last_album`. -/
theorem c5_counterexample :
    cAlb3.album = some "A" ∧ cAlb2.album = none ∧ cAlb3.album ≠ cAlb2.album
    ∧ played_albums [cAlb1, cAlb2, cAlb3] = [(some "A", some "X")]
    ∧ (played_albums [cAlb1, cAlb2, cAlb3]).count (some "A", some "X") = 1 :=
  ⟨rfl, rfl, by decide, by decide, by decide⟩

/-- C5 (amended): an `(album, artist)` pair is counted exactly at the
positions where the record's album is present and non-empty and differs
from the album of the nearest preceding record with a present, non-empty
album (records without one neither count nor break a run); the ranking
sorts the counted pairs descending by count, breaks ties by
first-encountered order (the filter at each count value is preserved),
and is truncated to N. -/
theorem c5_amended (songs : List Song) (n : Nat) :
    played_albums songs
        = countAtAlbumChange none (songs.filter (fun s => truthy s.album))
    ∧ (sortByCountDesc (countItems (played_albums songs))).Pairwise
        (fun p q => q.2 ≤ p.2)
    ∧ (∀ c : Nat,
        (sortByCountDesc (countItems (played_albums songs))).filter
            (fun p => decide (p.2 = c))
          = (countItems (played_albums songs)).filter (fun p => decide (p.2 = c)))
    ∧ top_albums songs n = (sortByCountDesc (countItems (played_albums songs))).take n :=
  ⟨played_albums_spec songs, sortByCountDesc_pairwise _,
    fun c => sortByCountDesc_filter c _, rfl⟩


/-! ### Duration parsing (C2, C10) -/

theorem length_splitOnChar (sep : Char) :
    ∀ l : List Char, (splitOnChar sep l).length = l.count sep + 1 := by
  intro l
  induction l with
  | nil => rfl
  | cons c rest ih =>
    simp only [splitOnChar]
    by_cases h : (c == sep) = true
    · rw [if_pos h]
      simp only [List.length_cons, ih, List.count_cons]
      rw [if_pos h]
    · rw [if_neg h]
      cases hs : splitOnChar sep rest with
      | nil =>
        rw [hs] at ih
        simp at ih
      | cons p ps =>
        simp only [List.length_cons]
        rw [hs] at ih
        simp only [List.length_cons] at ih
        simp only [List.count_cons]
        rw [if_neg h]
        omega

theorem list_eq_pair_of_length_two {l : List α} (h : l.length = 2) :
    ∃ a b, l = [a, b] := by
  cases l with
  | nil => simp at h
  | cons a t =>
    cases t with
    | nil => simp at h
    | cons b t2 =>
      cases t2 with
      | nil => exact ⟨a, b, rfl⟩
      | cons c t3 => simp at h

theorem list_eq_triple_of_length_three {l : List α} (h : l.length = 3) :
    ∃ a b c, l = [a, b, c] := by
  cases l with
  | nil => simp at h
  | cons a t =>
    cases t with
    | nil => simp at h
    | cons b t2 =>
      cases t2 with
      | nil => simp at h
      | cons c t3 =>
        cases t3 with
        | nil => exact ⟨a, b, c, rfl⟩
        | cons d t4 => simp at h

/-- C2 (amended): the parsed duration is present exactly when the string is
non-empty, is not the literal "0", has exactly one or two colons, and
every colon-separated component is accepted by Python `int()` (which
permits an optional sign, surrounding whitespace and underscore digit
grouping - so negative or signed components are accepted); and the value
combines the (possibly negative) component values as m:ss resp. h:mm:ss. -/
theorem c2_amended (l : List Char) :
    ((parse_duration_chars l).isSome = true ↔
      l ≠ [] ∧ l ≠ ['0'] ∧ (l.count ':' = 1 ∨ l.count ':' = 2)
        ∧ ∀ p ∈ splitOnChar ':' l, (pyInt? p).isSome = true)
    ∧ (∀ m sec : Int, (splitOnChar ':' l).map pyInt? = [some m, some sec] →
        parse_duration_chars l = some (m * 60 + sec))
    ∧ (∀ hr m sec : Int,
        (splitOnChar ':' l).map pyInt? = [some hr, some m, some sec] →
        parse_duration_chars l = some (hr * 3600 + m * 60 + sec)) := by
  refine ⟨?_, ?_, ?_⟩
  · by_cases h0 : l = [] ∨ l = ['0']
    · unfold parse_duration_chars
      rw [if_pos h0]
      constructor
      · intro hc
        simp at hc
      · rintro ⟨h1, h2, _⟩
        rcases h0 with h | h
        · exact absurd h h1
        · exact absurd h h2
    · have h1 : l ≠ [] := fun hc => h0 (Or.inl hc)
      have h2 : l ≠ ['0'] := fun hc => h0 (Or.inr hc)
      unfold parse_duration_chars
      rw [if_neg h0]
      by_cases hc1 : l.count ':' = 1
      · rw [if_pos hc1]
        have hlen : (splitOnChar ':' l).length = 2 := by
          rw [length_splitOnChar, hc1]
        obtain ⟨a, b, hab⟩ := list_eq_pair_of_length_two hlen
        rw [hab]
        simp only [List.map_cons, List.map_nil]
        cases hpa : pyInt? a with
        | none =>
          constructor
          · intro hc
            simp at hc
          · rintro ⟨_, _, _, hall⟩
            have := hall a (List.mem_cons_self _ _)
            rw [hpa] at this
            simp at this
        | some m =>
          cases hpb : pyInt? b with
          | none =>
            constructor
            · intro hc
              simp at hc
            · rintro ⟨_, _, _, hall⟩
              have := hall b (by simp)
              rw [hpb] at this
              simp at this
          | some sec =>
            constructor
            · intro _
              refine ⟨h1, h2, Or.inl hc1, ?_⟩
              intro p hp
              rcases List.mem_cons.mp hp with rfl | hp
              · simp [hpa]
              · rcases List.mem_cons.mp hp with rfl | hp
                · simp [hpb]
                · cases hp
            · intro _
              rfl
      · by_cases hc2 : l.count ':' = 2
        · rw [if_neg hc1, if_pos hc2]
          have hlen : (splitOnChar ':' l).length = 3 := by
            rw [length_splitOnChar, hc2]
          obtain ⟨a, b, c, habc⟩ := list_eq_triple_of_length_three hlen
          rw [habc]
          simp only [List.map_cons, List.map_nil]
          cases hpa : pyInt? a with
          | none =>
            constructor
            · intro hc
              simp at hc
            · rintro ⟨_, _, _, hall⟩
              have := hall a (List.mem_cons_self _ _)
              rw [hpa] at this
              simp at this
          | some hr =>
            cases hpb : pyInt? b with
            | none =>
              constructor
              · intro hc
                simp at hc
              · rintro ⟨_, _, _, hall⟩
                have := hall b (by simp)
                rw [hpb] at this
                simp at this
            | some m =>
              cases hpc : pyInt? c with
              | none =>
                constructor
                · intro hc
                  simp at hc
                · rintro ⟨_, _, _, hall⟩
                  have := hall c (by simp)
                  rw [hpc] at this
                  simp at this
              | some sec =>
                constructor
                · intro _
                  refine ⟨h1, h2, Or.inr hc2, ?_⟩
                  intro p hp
                  rcases List.mem_cons.mp hp with rfl | hp
                  · simp [hpa]
                  · rcases List.mem_cons.mp hp with rfl | hp
                    · simp [hpb]
                    · rcases List.mem_cons.mp hp with rfl | hp
                      · simp [hpc]
                      · cases hp
                · intro _
                  rfl
        · rw [if_neg hc1, if_neg hc2]
          constructor
          · intro hc
            simp at hc
          · rintro ⟨_, _, hor, _⟩
            rcases hor with h | h
            · exact absurd h hc1
            · exact absurd h hc2
  · intro m sec hmap
    have h1 : l ≠ [] := by
      intro hc
      subst hc
      simp [splitOnChar, pyInt?, trimWs, pyIntDigits] at hmap
    have h2 : l ≠ ['0'] := by
      intro hc
      subst hc
      simp [splitOnChar] at hmap
    have hlen : (splitOnChar ':' l).length = 2 := by
      have := congrArg List.length hmap
      simpa using this
    have hc1 : l.count ':' = 1 := by
      have := length_splitOnChar ':' l
      omega
    unfold parse_duration_chars
    rw [if_neg (fun hc => hc.elim h1 h2), if_pos hc1, hmap]
  · intro hr m sec hmap
    have h1 : l ≠ [] := by
      intro hc
      subst hc
      simp [splitOnChar, pyInt?, trimWs, pyIntDigits] at hmap
    have h2 : l ≠ ['0'] := by
      intro hc
      subst hc
      simp [splitOnChar] at hmap
    have hlen : (splitOnChar ':' l).length = 3 := by
      have := congrArg List.length hmap
      simpa using this
    have hc2 : l.count ':' = 2 := by
      have := length_splitOnChar ':' l
      omega
    have hc1 : ¬l.count ':' = 1 := by omega
    unfold parse_duration_chars
    rw [if_neg (fun hc => hc.elim h1 h2), if_neg hc1, if_pos hc2, hmap]

/-- C2, counterexample: the one-colon duration string "1:-1" has a negative
second component and a sign, yet `parse_duration` accepts it (59 seconds)
and the record is retained, where the claim requires the duration to be
absent and the record discarded. -/
theorem c2_counterexample :
    "1:-1".data.count ':' = 1
    ∧ parse_duration (some "1:-1") = some 59
    ∧ song_kept_by_duration (some "1:-1") = true :=
  ⟨by decide, by decide, by decide⟩

/-- C2 witness: the amended theorem applied to the concrete string "1:23". -/
theorem c2_amended_witness :
    parse_duration_chars ('1' :: ':' :: '2' :: '3' :: []) = some (1 * 60 + 23) :=
  (c2_amended ('1' :: ':' :: '2' :: '3' :: [])).2.1 1 23 (by decide)


/-- A non-empty component consisting only of zero digits. -/
def zeroChars (l : List Char) : Prop := l ≠ [] ∧ ∀ c ∈ l, c = '0'

theorem splitOnChar_not_mem (sep : Char) :
    ∀ l : List Char, (∀ c ∈ l, (c == sep) = false) → splitOnChar sep l = [l] := by
  intro l
  induction l with
  | nil => intro _; rfl
  | cons c rest ih =>
    intro h
    have hc := h c (List.mem_cons_self _ _)
    simp only [splitOnChar]
    rw [if_neg (by simp [hc]), ih (fun x hx => h x (List.mem_cons_of_mem _ hx))]

theorem splitOnChar_append (sep : Char) :
    ∀ (a rest : List Char), (∀ c ∈ a, (c == sep) = false) →
      splitOnChar sep (a ++ sep :: rest) = a :: splitOnChar sep rest := by
  intro a
  induction a with
  | nil =>
    intro rest _
    simp only [List.nil_append, splitOnChar]
    rw [if_pos (by simp)]
  | cons c a2 ih =>
    intro rest h
    have hc := h c (List.mem_cons_self _ _)
    simp only [List.cons_append, splitOnChar]
    rw [if_neg (by simp [hc]), List.append_eq,
      ih rest (fun x hx => h x (List.mem_cons_of_mem _ hx))]

theorem dropWhile_pyWs_zeros {l : List Char} (h : ∀ c ∈ l, c = '0') :
    l.dropWhile pyWs = l := by
  cases l with
  | nil => rfl
  | cons c rest =>
    have hc := h c (List.mem_cons_self _ _)
    subst hc
    rw [List.dropWhile_cons_of_neg (by decide)]

theorem trimWs_zeros {l : List Char} (h : ∀ c ∈ l, c = '0') : trimWs l = l := by
  unfold trimWs
  rw [dropWhile_pyWs_zeros h, dropWhile_pyWs_zeros, List.reverse_reverse]
  intro c hc
  exact h c (List.mem_reverse.mp hc)

theorem usRun_zeros : ∀ l : List Char, (∀ c ∈ l, c = '0') → usRun false l = true := by
  intro l
  induction l with
  | nil => intro _; rfl
  | cons c rest ih =>
    intro h
    have hc := h c (List.mem_cons_self _ _)
    subst hc
    show ('0'.isDigit && usRun false rest) = true
    simp only [Bool.and_eq_true]
    exact ⟨by decide, ih (fun x hx => h x (List.mem_cons_of_mem _ hx))⟩

theorem natOfDigits_zeros : ∀ l : List Char, (∀ c ∈ l, c = '0') → natOfDigits l = 0 := by
  intro l
  induction l with
  | nil => intro _; rfl
  | cons c rest ih =>
    intro h
    have hc := h c (List.mem_cons_self _ _)
    subst hc
    unfold natOfDigits
    simp only [List.foldl_cons]
    exact ih (fun x hx => h x (List.mem_cons_of_mem _ hx))

theorem pyInt_zeros {l : List Char} (hz : zeroChars l) : pyInt? l = some 0 := by
  obtain ⟨hne, h⟩ := hz
  obtain ⟨c, rest, rfl⟩ : ∃ c rest, l = c :: rest := by
    cases l with
    | nil => exact absurd rfl hne
    | cons c rest => exact ⟨c, rest, rfl⟩
  have hc := h c (List.mem_cons_self _ _)
  subst hc
  unfold pyInt?
  rw [trimWs_zeros h]
  have hrest : ∀ x ∈ rest, x = '0' := fun x hx => h x (List.mem_cons_of_mem _ hx)
  show (pyIntDigits ('0' :: rest)).map (fun n => (n : Int)) = some 0
  show (if ('0'.isDigit && usRun false rest) = true then
      some (natOfDigits (('0' :: rest).filter (fun ch => !(ch == '_'))))
    else none).map (fun n => (n : Int)) = some 0
  rw [if_pos (by rw [usRun_zeros rest hrest]; decide)]
  have hfilter : (('0' :: rest).filter (fun ch => !(ch == '_'))) = '0' :: rest := by
    apply List.filter_eq_self.mpr
    intro x hx
    have := h x hx
    subst this
    decide
  rw [hfilter, natOfDigits_zeros _ h]
  rfl

theorem count_colon_zeros {l : List Char} (h : ∀ c ∈ l, c = '0') : l.count ':' = 0 := by
  rw [List.count_eq_zero]
  intro hc
  have := h _ hc
  simp at this

/-- C10: a well-formed zero-valued duration such as "0:00" or "0:00:00" is
not treated as the zero-duration sentinel: the parsed duration is present
with value 0 and the record passes the duration gate, while the literal
"0" alone is rejected. -/
theorem c10_zero_durations (a b c : List Char)
    (ha : zeroChars a) (hb : zeroChars b) (hc : zeroChars c) :
    parse_duration_chars (a ++ ':' :: b) = some 0
    ∧ parse_duration_chars (a ++ ':' :: (b ++ ':' :: c)) = some 0
    ∧ song_kept_by_duration (some (String.mk (a ++ ':' :: b))) = true
    ∧ song_kept_by_duration (some (String.mk (a ++ ':' :: (b ++ ':' :: c)))) = true
    ∧ parse_duration_chars ['0'] = none := by
  have hba : ∀ x ∈ a, (x == ':') = false := by
    intro x hx
    have := ha.2 x hx
    subst this
    decide
  have hbb : ∀ x ∈ b, (x == ':') = false := by
    intro x hx
    have := hb.2 x hx
    subst this
    decide
  have hbc : ∀ x ∈ c, (x == ':') = false := by
    intro x hx
    have := hc.2 x hx
    subst this
    decide
  have hsplit2 : splitOnChar ':' (a ++ ':' :: b) = [a, b] := by
    rw [splitOnChar_append ':' a b hba, splitOnChar_not_mem ':' b hbb]
  have hsplit3 : splitOnChar ':' (a ++ ':' :: (b ++ ':' :: c)) = [a, b, c] := by
    rw [splitOnChar_append ':' a (b ++ ':' :: c) hba,
      splitOnChar_append ':' b c hbb, splitOnChar_not_mem ':' c hbc]
  have hmap2 : (splitOnChar ':' (a ++ ':' :: b)).map pyInt? = [some 0, some 0] := by
    rw [hsplit2]
    simp [pyInt_zeros ha, pyInt_zeros hb]
  have hmap3 : (splitOnChar ':' (a ++ ':' :: (b ++ ':' :: c))).map pyInt?
      = [some 0, some 0, some 0] := by
    rw [hsplit3]
    simp [pyInt_zeros ha, pyInt_zeros hb, pyInt_zeros hc]
  have hcnt2 : (a ++ ':' :: b).count ':' = 1 := by
    simp [List.count_append, List.count_cons, count_colon_zeros ha.2,
      count_colon_zeros hb.2]
  have hcnt3 : (a ++ ':' :: (b ++ ':' :: c)).count ':' = 2 := by
    simp [List.count_append, List.count_cons, count_colon_zeros ha.2,
      count_colon_zeros hb.2, count_colon_zeros hc.2]
  have hne2 : ¬(a ++ ':' :: b = [] ∨ a ++ ':' :: b = ['0']) := by
    rintro (h | h)
    · have : ':' ∈ a ++ ':' :: b := by simp
      rw [h] at this
      cases this
    · have : ':' ∈ a ++ ':' :: b := by simp
      rw [h] at this
      simp at this
  have hne3 : ¬(a ++ ':' :: (b ++ ':' :: c) = [] ∨ a ++ ':' :: (b ++ ':' :: c) = ['0']) := by
    rintro (h | h)
    · have : ':' ∈ a ++ ':' :: (b ++ ':' :: c) := by simp
      rw [h] at this
      cases this
    · have : ':' ∈ a ++ ':' :: (b ++ ':' :: c) := by simp
      rw [h] at this
      simp at this
  have hp2 : parse_duration_chars (a ++ ':' :: b) = some 0 := by
    unfold parse_duration_chars
    rw [if_neg hne2, if_pos hcnt2, hmap2]
    norm_num
  have hp3 : parse_duration_chars (a ++ ':' :: (b ++ ':' :: c)) = some 0 := by
    unfold parse_duration_chars
    have hc1ne : ¬(a ++ ':' :: (b ++ ':' :: c)).count ':' = 1 := by omega
    rw [if_neg hne3, if_neg hc1ne, if_pos hcnt3, hmap3]
    norm_num
  refine ⟨hp2, hp3, ?_, ?_, by decide⟩
  · simp [song_kept_by_duration, parse_duration, hp2]
  · simp [song_kept_by_duration, parse_duration, hp3]

/-- C10 witness: the theorem applied to "0:00" and "0:00:00". -/
theorem c10_witness :
    zeroChars ['0'] ∧ zeroChars ['0', '0']
    ∧ parse_duration_chars ('0' :: ':' :: '0' :: '0' :: []) = some 0 :=
  ⟨⟨by decide, by decide⟩, ⟨by decide, by decide⟩,
    (c10_zero_durations ['0'] ['0', '0'] ['0', '0']
      ⟨by decide, by decide⟩ ⟨by decide, by decide⟩ ⟨by decide, by decide⟩).1⟩


/-! ### Comment-year extraction (C7) -/

/-- The character just before position `i` (`prev` at position 0). -/
def posPrev (prev : Option Char) (cs : List Char) : Nat → Option Char
  | 0 => prev
  | i + 1 => cs[i]?

/-- The word-bounded year match of the pattern at position `i` of the
comment text, in the claim's index-based terms. -/
def boundedYearAt (cs : List Char) (i : Nat) : Option Nat :=
  yearAt (posPrev none cs i) (cs.drop i)

theorem posPrev_shift (prev : Option Char) (c : Char) (rest : List Char) :
    ∀ i, posPrev prev (c :: rest) (i + 1) = posPrev (some c) rest i := by
  intro i
  cases i with
  | zero => simp [posPrev]
  | succ j => simp [posPrev]

theorem searchYear_spec :
    ∀ (cs : List Char) (prev : Option Char),
      (searchYear prev cs = none ↔
        ∀ i, yearAt (posPrev prev cs i) (cs.drop i) = none)
      ∧ (∀ y, searchYear prev cs = some y →
          ∃ i, yearAt (posPrev prev cs i) (cs.drop i) = some y
            ∧ ∀ j < i, yearAt (posPrev prev cs j) (cs.drop j) = none) := by
  intro cs
  induction cs with
  | nil =>
    intro prev
    constructor
    · constructor
      · intro _ i
        simp [yearAt]
      · intro _
        rfl
    · intro y hy
      simp [searchYear] at hy
  | cons c rest ih =>
    intro prev
    constructor
    · simp only [searchYear]
      cases hya : yearAt prev (c :: rest) with
      | some y =>
        constructor
        · intro hc
          simp at hc
        · intro hall
          have h0 := hall 0
          simp only [posPrev, List.drop_zero] at h0
          rw [hya] at h0
          cases h0
      | none =>
        rw [(ih (some c)).1]
        constructor
        · intro h i
          cases i with
          | zero =>
            simpa [posPrev] using hya
          | succ j =>
            have := h j
            rw [posPrev_shift, List.drop_succ_cons]
            exact this
        · intro hall j
          have := hall (j + 1)
          rw [posPrev_shift, List.drop_succ_cons] at this
          exact this
    · intro y hy
      simp only [searchYear] at hy
      cases hya : yearAt prev (c :: rest) with
      | some y2 =>
        rw [hya] at hy
        have hy2 : y2 = y := by
          simpa using hy
        subst hy2
        refine ⟨0, ?_, ?_⟩
        · simpa [posPrev] using hya
        · intro j hj
          exact absurd hj (Nat.not_lt_zero j)
      | none =>
        rw [hya] at hy
        obtain ⟨i, hi, hmin⟩ := (ih (some c)).2 y hy
        refine ⟨i + 1, ?_, ?_⟩
        · rw [posPrev_shift, List.drop_succ_cons]
          exact hi
        · intro j hj
          cases j with
          | zero =>
            simpa [posPrev] using hya
          | succ j2 =>
            rw [posPrev_shift, List.drop_succ_cons]
            exact hmin j2 (by omega)

/-- C7, counterexample: the comment "x2011" contains the 4-digit substring
"2011" beginning with 20, yet the extracted comment year is absent,
because the regex requires a word boundary and the preceding character is
the word character x. -/
theorem c7_counterexample :
    extract_year_from_comment (some "x2011") = none
    ∧ "x2011".data = 'x' :: "2011".data :=
  ⟨by decide, by decide⟩

/-- C7 (amended): the derived comment year is the value of the first
(leftmost) occurrence of a 4-digit substring beginning with 19 or 20 that
is delimited by word boundaries (not adjacent to a letter, digit or
underscore); it is absent exactly when no such word-bounded occurrence
exists (or the comment is absent or empty). -/
theorem c7_amended (s : String) :
    (extract_year_from_comment (some s) = none ↔
      ∀ i, boundedYearAt s.data i = none)
    ∧ (∀ y, extract_year_from_comment (some s) = some y →
        ∃ i, boundedYearAt s.data i = some y
          ∧ ∀ j < i, boundedYearAt s.data j = none) := by
  simp only [extract_year_from_comment]
  by_cases hs : s.data = []
  · rw [if_pos hs]
    constructor
    · constructor
      · intro _ i
        unfold boundedYearAt
        rw [hs]
        simp [yearAt]
      · intro _
        rfl
    · intro y hy
      cases hy
  · rw [if_neg hs]
    simpa only [boundedYearAt] using searchYear_spec s.data none

/-- C7 witness: the amended theorem applied to a concrete comment in which
the year 2011 occurs word-bounded. -/
theorem c7_amended_witness :
    ∃ i, boundedYearAt ("download 2011-03-18").data i = some 2011
      ∧ ∀ j < i, boundedYearAt ("download 2011-03-18").data j = none :=
  (c7_amended "download 2011-03-18").2 2011 (by decide)


/-! ### Year-filter handling (C8) -/

/-- C8, counterexample: the malformed year-filter string "65" (neither a
4-digit year nor a YYYY-YYYY range) does not degrade to "no filter": it
produces an active filter [65], and a record dated 2023 fails the year
test (so it is discarded on account of the year filter). -/
theorem c8_counterexample :
    parse_year_filter (some "65") = some [65]
    ∧ year_match (parse_year_filter (some "65")) 2023 = false
    ∧ "65".length = 2 :=
  ⟨by decide, by decide, by decide⟩

/-- C8 (amended): the run is never aborted (the parser is total) and
filtering degrades to "no filter" exactly when Python int() fails on the
filter string: an empty string, a string without a dash whose whole text
is not an integer, or a dashed string that does not split into exactly two
integers; whenever parsing fails, no record is rejected by the year test.
Integer-parseable strings of any other shape (such as "65") yield an
active filter. -/
theorem c8_amended (s : String) :
    (parse_year_filter (some s) = none ↔
      s.data = []
      ∨ (s.data.contains '-' = false ∧ pyInt? s.data = none)
      ∨ (s.data.contains '-' = true
          ∧ ∀ a b : Int, (splitOnChar '-' s.data).map pyInt? ≠ [some a, some b]))
    ∧ (parse_year_filter (some s) = none →
        ∀ y : Int, year_match (parse_year_filter (some s)) y = true) := by
  constructor
  · simp only [parse_year_filter]
    by_cases hs : s.data = []
    · rw [if_pos hs]
      simp [hs]
    · rw [if_neg hs]
      by_cases hc : s.data.contains '-' = true
      · rw [if_pos hc]
        constructor
        · intro h
          refine Or.inr (Or.inr ⟨hc, ?_⟩)
          intro a b hab
          rw [hab] at h
          cases h
        · rintro (h | h | h)
          · exact absurd h hs
          · rw [h.1] at hc
            cases hc
          · obtain ⟨_, hnab⟩ := h
            split
            · rename_i a b heq
              exact absurd heq (hnab a b)
            · rfl
      · have hcf : s.data.contains '-' = false := by
          cases h2 : s.data.contains '-'
          · rfl
          · exact absurd h2 hc
        rw [if_neg hc]
        constructor
        · intro h
          refine Or.inr (Or.inl ⟨hcf, ?_⟩)
          cases hp : pyInt? s.data with
          | none => rfl
          | some v =>
            rw [hp] at h
            cases h
        · rintro (h | h | h)
          · exact absurd h hs
          · rw [h.2]
            rfl
          · rw [h.1] at hcf
            cases hcf
  · intro h y
    rw [h]
    rfl

/-- C8 witness: the amended theorem applied to the non-numeric filter
string "abc". -/
theorem c8_amended_witness :
    year_match (parse_year_filter (some "abc")) 2023 = true :=
  (c8_amended "abc").2 (by decide) 2023

/-! ### Empty-input behaviour of the aggregation stage (C3) -/

theorem dedupSongs_ne_nil {songs : List Song} (h : songs ≠ []) :
    dedupSongs songs ≠ [] := by
  obtain ⟨s, rest, rfl⟩ : ∃ s rest, songs = s :: rest := by
    cases songs with
    | nil => exact absurd rfl h
    | cons s rest => exact ⟨s, rest, rfl⟩
  by_cases hk : hasKey s = true
  · by_cases hsmall : (groupOf (s :: rest) (theKey s)).length ≤ 1
    · have hs : s ∈ dedupPass1 (s :: rest) := by
        apply List.mem_filter.mpr
        refine ⟨List.mem_cons_self _ _, ?_⟩
        simp [hk, hsmall]
      intro hc
      unfold dedupSongs at hc
      rw [List.append_eq_nil] at hc
      rw [hc.1] at hs
      cases hs
    · have hbig : 2 ≤ (groupOf (s :: rest) (theKey s)).length := by omega
      have hmem : theKey s ∈ bigKeys (s :: rest) :=
        mem_bigKeys.mpr ⟨keysInOrder_of_big hbig, hbig⟩
      have hlen : (dedupReps (s :: rest)).length = (bigKeys (s :: rest)).length := by
        apply length_filterMap_of_isSome
        intro x hx
        have hb := (mem_bigKeys.mp hx).2
        cases hg : groupOf (s :: rest) x with
        | nil =>
          rw [hg] at hb
          simp at hb
        | cons r t => simp [hg]
      intro hc
      unfold dedupSongs at hc
      rw [List.append_eq_nil] at hc
      have h0 : (bigKeys (s :: rest)).length = 0 := by
        rw [← hlen, hc.2]
        rfl
      rw [List.length_eq_zero.mp h0] at hmem
      cases hmem
  · have hkf : hasKey s = false := by
      cases h2 : hasKey s
      · rfl
      · exact absurd h2 hk
    have hs : s ∈ dedupPass1 (s :: rest) := by
      apply List.mem_filter.mpr
      refine ⟨List.mem_cons_self _ _, ?_⟩
      simp [hkf]
    intro hc
    unfold dedupSongs at hc
    rw [List.append_eq_nil] at hc
    rw [hc.1] at hs
    cases hs

/-- C3, counterexample: with an empty accepted-record set the pipeline does
not yield a zero-filled StatisticsResult - it exits early ("No song data
found.") and produces no result at all. -/
theorem c3_counterexample : analyze_music_logs [] 0 none = none := rfl

/-- C3 (amended): for an empty input the pipeline yields no
StatisticsResult (early exit before the aggregation stage, so in
particular no division error can occur there); whenever a result is
produced, the total accepted count is positive, so the per-category
percentage divisors are nonzero. -/
theorem c3_amended (songs : List Song) (d : Nat) (t : Option Nat) :
    (songs = [] → analyze_music_logs songs d t = none)
    ∧ ∀ st, analyze_music_logs songs d t = some st → 0 < st.totalSongs := by
  constructor
  · intro h
    subst h
    rfl
  · intro st hst
    simp only [analyze_music_logs] at hst
    by_cases hs : songs.isEmpty
    · rw [if_pos hs] at hst
      cases hst
    · rw [if_neg hs] at hst
      injection hst with hst2
      subst hst2
      show 0 < (List.insertionSort (fun a b : Song => a.datetime ≤ b.datetime)
        (dedupSongs songs)).length
      rw [List.length_insertionSort]
      apply List.length_pos.mpr
      apply dedupSongs_ne_nil
      intro hc
      subst hc
      simp at hs

/-- A concrete accepted record for the C3 witness. -/
def c3Song : Song :=
  { artist := some "A", album := some "B", title := some "T",
    date := some "2023/01/01 10:00:00", playerName := some "P", duration := 180,
    datetime := 0, file_format := "mp3", comment_year := some 2011 }

/-- C3 witness: the amended theorem applied to the empty input and to a
concrete one-record input. -/
theorem c3_amended_witness :
    analyze_music_logs [] 0 none = none
    ∧ (analyze_music_logs [c3Song] 0 none).elim False (fun st => 0 < st.totalSongs) := by
  refine ⟨(c3_amended [] 0 none).1 rfl, ?_⟩
  have hs : (analyze_music_logs [c3Song] 0 none).isSome = true := by decide
  cases heq : analyze_music_logs [c3Song] 0 none with
  | none =>
    rw [heq] at hs
    cases hs
  | some st =>
    exact (c3_amended [c3Song] 0 none).2 st heq

end Squeeze
